import Mathlib

/-!
Shallow Lean embedding of the PCA pipeline of TurbuStat
(turbustat/statistics/pca/pca.py) and proofs about its behaviour.

Modelling conventions:
 - machine floats are modelled as exact rationals; where NaN or infinity
   matter, the inductive type FVal distinguishes them from finite values;
 - numpy arrays are Lean lists; elementwise operations are zipWith or map;
 - a raised Python exception is an Except error value; the error names
   record the Python exception class raised by the source;
 - external numerical collaborators that are not part of the source under
   study (np.linalg.eigh, the FFT autocorrelation kernels, the ODR and MCMC
   regression engines from fitting_utils) enter as function parameters or
   as input data, exactly at the boundary where the source consumes them.
-/

namespace TurbuStat

/-- Python float-like value: NaN, plus or minus infinity, or a finite real
(modelled as a rational). -/
inductive FVal : Type where
  | nan : FVal
  | inf : FVal
  | ninf : FVal
  | fin : ℚ → FVal
deriving DecidableEq

/-- A value is finite when it is neither NaN nor an infinity. -/
def FVal.isFinite : FVal → Bool
  | .fin _ => true
  | _ => false

/-- Machine epsilon of float64, the value of np.finfo(np.float64).eps. -/
def float64eps : ℚ := 1 / 4503599627370496

/-- Embedding of the NaN patching statement in PCA.__init__ (pca.py line 57):
data positions where np.isnan holds are overwritten with the machine epsilon
of the dtype of the data; every other position, including infinities, is
left unchanged. -/
def patch_nans (eps : ℚ) (data : List FVal) : List FVal :=
  data.map fun v =>
    match v with
    | .nan => .fin eps
    | w => w

/-- Error values naming the Python exception class the source raises. -/
inductive PCAError : Type where
  | valueError : PCAError
  | warningError : PCAError
  | typeError : PCAError
  | unboundLocal : PCAError
deriving DecidableEq

/-- Method tag strings used by the source. -/
def method_value : String := "value"

/-- Method tag for the cumulative proportion cut in set_n_eigs. -/
def method_proportion : String := "proportion"

/-- Fit method tag for orthogonal distance regression. -/
def method_odr : String := "odr"

/-- Fit method tag for the MCMC fit. -/
def method_bayes : String := "bayes"

/-- Embedding of np.cumsum on a one dimensional array: the list of running
prefix sums. -/
def np_cumsum : List ℚ → List ℚ
  | [] => []
  | x :: xs => x :: (np_cumsum xs).map (fun y => x + y)

/-- Embedding of set_n_eigs (pca.py lines 1051-1088). The value branch
counts the np.where indices at which the eigenvalue is at least min_eigval;
the proportion branch forms the cumulative sums of the eigenvalues divided
by their total and counts the entries that are at most min_eigval; any
other method raises ValueError. -/
def set_n_eigs (eigenvalues : List ℚ) (min_eigval : ℚ) (method : String) :
    Except PCAError ℕ :=
  if method = method_value then
    .ok (((List.range eigenvalues.length).filter
      (fun i => decide (min_eigval ≤ eigenvalues.getD i 0))).length)
  else if method = method_proportion then
    .ok ((np_cumsum (eigenvalues.map (fun e => e / eigenvalues.sum))).countP
      (fun c => decide (c ≤ min_eigval)))
  else
    .error .valueError

/-- Embedding of the n_eigs property setter (pca.py lines 76-81): assigning
a value at most zero raises ValueError. -/
def n_eigs_setter (v : ℤ) : Except PCAError ℕ :=
  if v ≤ 0 then .error .valueError else .ok v.toNat

/-- The n_eigs argument of compute_pca: either the string auto or an
integer (with -1 meaning all channels). -/
inductive NEigsArg : Type where
  | auto : NEigsArg
  | num : ℤ → NEigsArg
deriving DecidableEq

/-- Embedding of the mode count selection in compute_pca
(pca.py lines 123-145). Every assignment to self.n_eigs goes through the
property setter. Note that in the auto branch the full sorted eigenvalue
array is passed to set_n_eigs, for either value of mean_sub. -/
def compute_pca_select (nEigsArg : NEigsArg) (minEigval : Option ℚ)
    (cutMethod : String) (allEigsvals : List ℚ) (spectralShape : ℕ) :
    Except PCAError ℕ :=
  if nEigsArg = NEigsArg.auto ∧ minEigval = none then .error .valueError
  else
    match nEigsArg with
    | .auto =>
      match set_n_eigs allEigsvals (minEigval.getD 0) cutMethod with
      | .error e => .error e
      | .ok n => n_eigs_setter (n : ℤ)
    | .num k =>
      if k = -1 then n_eigs_setter (spectralShape : ℤ)
      else if k < -1 ∨ (spectralShape : ℤ) < k ∨ k = 0 then
        .error .warningError
      else n_eigs_setter k

/-- Embedding of the variance bookkeeping in compute_pca
(pca.py lines 147-154): the pair of the total variance and the variance
proportion. With mean_sub the sums start at index 0; without mean_sub the
total sums indices from 1 and the numerator is the slice from index 1 up to
but excluding index n_eigs. -/
def compute_pca_variance (meanSub : Bool) (allEigsvals : List ℚ) (nEigs : ℕ) :
    ℚ × ℚ :=
  if meanSub then
    (allEigsvals.sum, (allEigsvals.take nEigs).sum / allEigsvals.sum)
  else
    ((allEigsvals.drop 1).sum,
      ((allEigsvals.take nEigs).drop 1).sum / (allEigsvals.drop 1).sum)

/-- Embedding of compute_pca after the external eigendecomposition
(pca.py lines 116-159): the sorted eigenvalues enter as data, the selection
and the variance bookkeeping follow the source. Returns the selected
n_eigs together with the total variance and the variance proportion. -/
def compute_pca (meanSub : Bool) (nEigsArg : NEigsArg) (minEigval : Option ℚ)
    (cutMethod : String) (allEigsvals : List ℚ) (spectralShape : ℕ) :
    Except PCAError (ℕ × ℚ × ℚ) :=
  match compute_pca_select nEigsArg minEigval cutMethod allEigsvals
      spectralShape with
  | .error e => .error e
  | .ok n => .ok (n, compute_pca_variance meanSub allEigsvals n)

/-- Embedding of brunt_index_correct (pca.py lines 1036-1048), the broken
linear calibration of the fitted index. -/
def brunt_index_correct (value : ℚ) : ℚ :=
  if value < 67/100 then (value - 32/100) / (59/100)
  else (value - 3/100) / (107/100)

/-- Embedding of the PCA.gamma property (pca.py lines 564-570): the
correction applied to the point estimate of the index. -/
def gamma_of (index : ℚ) : ℚ := brunt_index_correct index

/-- Embedding of the PCA.gamma_error_range property (pca.py lines 572-578):
the correction is applied to each bound of the index error range on its
own. -/
def gamma_error_range_of (indexErrorRange : ℚ × ℚ) : ℚ × ℚ :=
  (brunt_index_correct indexErrorRange.1, brunt_index_correct indexErrorRange.2)

/-- Embedding of python range(n) for an integer argument: empty whenever
the argument is at most zero. -/
def pyrange (n : ℤ) : List ℕ := List.range n.toNat

/-- Embedding of PCA._valid_eigenvectors (pca.py lines 190-198): the
np.where indices at which the eigenvalue is at least the machine epsilon
of the dtype of the data. -/
def valid_eigenvectors (eigvals : List ℚ) (eps : ℚ) : List ℕ :=
  (List.range eigvals.length).filter (fun i => decide (eps ≤ eigvals.getD i 0))

/-- The last min(m, length) elements of a list, the reading of the python
slice a[-m:] used when talking about the last m valid modes. -/
def lastN (a : List ℕ) (m : ℕ) : List ℕ := a.drop (a.length - m)

/-- Embedding of the mode index selection of PCA.eigimages
(pca.py lines 217-227): positive counts iterate over range(n_eigs),
negative counts over the python slice [n_eigs:] of the valid eigenvector
indices; for a zero count the loop variable is never assigned (none). -/
def eigimages_iter (eigvals : List ℚ) (eps : ℚ) (nEigs : ℤ) :
    Option (List ℕ) :=
  if 0 < nEigs then some (pyrange nEigs)
  else if nEigs < 0 then
    some ((valid_eigenvectors eigvals eps).drop
      (((valid_eigenvectors eigvals eps).length : ℤ) + nEigs).toNat)
  else none

/-- Embedding of PCA.autocorr_spec (pca.py lines 289-317). The body of the
loop, the FFT autocorrelation of eigenvector column idx, is the external
parameter acorOf. The loop runs over range(n_eigs); when that range is
empty the accumulator acors is never bound and the final acors.swapaxes
call raises UnboundLocalError. -/
def autocorr_spec (acorOf : ℕ → List ℚ) (nEigs : ℤ) :
    Except PCAError (List (List ℚ)) :=
  match pyrange nEigs with
  | [] => .error .unboundLocal
  | idxs => .ok (idxs.map acorOf)

/-- Embedding of PCA.autocorr_images (pca.py lines 250-287): the mode
indices come from PCA.eigimages (delegation, so negative counts are
honoured); acf is the external 2D FFT autocorrelation applied to the
eigenimage of each selected mode, itself built by the external eigimgOf.
An empty iteration leaves the accumulator unbound, raising
UnboundLocalError inside eigimages. -/
def autocorr_images (acf : List ℚ → List ℚ) (eigimgOf : ℕ → List ℚ)
    (eigvals : List ℚ) (eps : ℚ) (nEigs : ℤ) :
    Except PCAError (List (List ℚ)) :=
  match eigimages_iter eigvals eps nEigs with
  | none => .error .unboundLocal
  | some [] => .error .unboundLocal
  | some idxs => .ok (idxs.map (fun i => acf (eigimgOf i)))

/-- Embedding of np.nansum(acors, axis=0): the elementwise sum of a stack
of images (entries are finite rationals, so nansum is a plain sum). -/
def np_nansum_axis0 : List (List ℚ) → List ℚ
  | [] => []
  | img :: rest => rest.foldl (fun acc im => acc.zipWith (fun a b => a + b) im) img

/-- Embedding of the final statement of PCA.noise_ACF (pca.py line 338):
the elementwise sum of the autocorrelation images divided by float(n_eigs),
the signed mode count itself. -/
def noise_ACF (acors : List (List ℚ)) (nEigs : ℤ) : List ℚ :=
  (np_nansum_axis0 acors).map (fun x => x / (nEigs : ℚ))

/-- Embedding of PCA.noise_ACF as a whole (pca.py lines 319-340): the
autocorrelation image stack of the requested modes, then the division by
the signed count. -/
def noise_ACF_run (acf : List ℚ → List ℚ) (eigimgOf : ℕ → List ℚ)
    (eigvals : List ℚ) (eps : ℚ) (nEigs : ℤ) : Except PCAError (List ℚ) :=
  match autocorr_images acf eigimgOf eigvals eps nEigs with
  | .error e => .error e
  | .ok acors => .ok (noise_ACF acors nEigs)

/-- Pipeline state of a PCA object at the point fit_plaw is called. Width
measurements are per mode; none stands for a non finite (NaN) entry.
The attributes _decomp_only and _fit_method may be unset (none). -/
structure PCAFitState : Type where
  spectral_width : List (Option ℚ)
  spatial_width : List (Option ℚ)
  spectral_width_error : List (Option ℚ)
  spatial_width_error : List (Option ℚ)
  decomp_only : Option Bool := none
  fit_method : Option String := none
deriving DecidableEq

/-- Elementwise conjunction of the finiteness of four arrays, the shape of
the are_finite product in fit_plaw. -/
def finite_mask4 (a b c d : List (Option ℚ)) : List Bool :=
  List.zipWith (fun x y => x && y)
    (List.zipWith (fun x y => x && y)
      (List.zipWith (fun x y => x && y)
        (a.map Option.isSome)
        (b.map Option.isSome))
      (c.map Option.isSome))
    (d.map Option.isSome)

/-- Embedding of the are_finite mask of fit_plaw (pca.py lines 510-513):
the elementwise product of the four np.isfinite arrays, in source order
spectral width, spatial width, spatial width error, spectral width
error. -/
def are_finite_mask (st : PCAFitState) : List Bool :=
  finite_mask4 st.spectral_width st.spatial_width st.spatial_width_error
    st.spectral_width_error

/-- Embedding of num_pts in fit_plaw (pca.py line 516): the size of the
spectral width array minus the number of false entries of the mask. -/
def num_pts (st : PCAFitState) : ℤ :=
  (st.spectral_width.length : ℤ) -
    ((are_finite_mask st).countP (fun b => decide (b = false)) : ℤ)

/-- Embedding of fit_plaw (pca.py lines 475-548) up to the hand off to the
external regression engines of fitting_utils. The returned state is the
object state when the call returns or raises; the payload is the raised
error, or on success the flag recording whether the fewer than five points
warning was emitted. Source order: the decomposition flag is set to false,
then the fit method is validated (TypeError), then stored, then the finite
mask and num_pts are formed, then fewer than two points raises Warning and
fewer than five warns without raising. -/
def fit_plaw (st : PCAFitState) (fitMethod : String) :
    PCAFitState × Except PCAError Bool :=
  if fitMethod ≠ method_odr ∧ fitMethod ≠ method_bayes then
    ({ st with decomp_only := some false }, .error .typeError)
  else if num_pts st < 2 then
    ({ st with decomp_only := some false, fit_method := some fitMethod },
      .error .warningError)
  else
    ({ st with decomp_only := some false, fit_method := some fitMethod },
      .ok (num_pts st < 5))

/-- Slice of the eigenvalue array retained by PCA_Distance.distance_metric
(pca.py lines 981-986): slice(0, n_eigs) with mean_sub, slice(1, n_eigs)
without. -/
def distance_slice (meanSub : Bool) (nEigs : ℕ) (eigvals : List ℝ) :
    List ℝ :=
  if meanSub then eigvals.take nEigs else (eigvals.take nEigs).drop 1

/-- Normalization of the retained eigenvalues to unit sum
(pca.py lines 988-991): each entry divided by the sum of the slice. -/
noncomputable def normalize_eigvals (v : List ℝ) : List ℝ :=
  v.map (fun e => e / v.sum)

/-- Euclidean norm of a vector, the meaning of np.linalg.norm. -/
noncomputable def eucl_norm (v : List ℝ) : ℝ :=
  Real.sqrt ((v.map (fun x => x ^ 2)).sum)

/-- Embedding of the distance computation of PCA_Distance.distance_metric
(pca.py lines 981-993): normalize the retained slice of each eigenvalue
array to sum to one and take the Euclidean norm of the difference. -/
noncomputable def distance_metric (meanSub : Bool) (nEigs : ℕ)
    (eigvals1 eigvals2 : List ℝ) : ℝ :=
  eucl_norm (List.zipWith (fun a b => a - b)
    (normalize_eigvals (distance_slice meanSub nEigs eigvals1))
    (normalize_eigvals (distance_slice meanSub nEigs eigvals2)))

/-- State of a PCA_Distance object: the eigenvalue arrays of the two
decomposed pipeline instances, the shared settings, and the distance
attribute the method sets. -/
structure PCADistState : Type where
  eigvals1 : List ℝ
  eigvals2 : List ℝ
  mean_sub : Bool
  n_eigs : ℕ
  distance : Option ℝ := none

/-- Embedding of the state effect of PCA_Distance.distance_metric: the
distance attribute is assigned; the eigenvalue arrays of both inputs are
only read. -/
noncomputable def distance_metric_run (st : PCADistState) : PCADistState :=
  { st with distance := (some
      (distance_metric st.mean_sub st.n_eigs st.eigvals1 st.eigvals2)) }

/-- Real valued version of brunt_index_correct, used on MCMC samples
(pca.py lines 688-690). -/
noncomputable def brunt_index_correct_r (value : ℝ) : ℝ :=
  if value < 67/100 then (value - 32/100) / (59/100)
  else (value - 3/100) / (107/100)

/-- Embedding of the all_lambds computation on the bayes branch of
PCA.sonic_length (pca.py lines 681-694). The source first loads the slope
samples and, with use_gamma, maps brunt_index_correct over them, but the
resulting array is never read again: all_lambds is
np.power(c_s / 10 ** intercepts, 1. / index) with the scalar point
estimate index as the exponent for every sample. The slopes and useGamma
arguments are kept to mirror the source signature; the result does not
depend on them. -/
noncomputable def sonic_lambda_samples (c_s index : ℝ)
    (slopes intercepts : List ℝ) (useGamma : Bool) : List ℝ :=
  let _slopes := if useGamma then slopes.map brunt_index_correct_r else slopes
  intercepts.map (fun b => (c_s / (10 : ℝ) ^ b) ^ (1 / index))

/-- Modelled from the claim wording for comparison: recompute lambda for
every posterior sample, using the slope sample (gamma corrected when
use_gamma) together with the intercept sample of the same draw. -/
noncomputable def sonic_lambda_samples_claim (c_s : ℝ)
    (slopes intercepts : List ℝ) (useGamma : Bool) : List ℝ :=
  let slopes1 := if useGamma then slopes.map brunt_index_correct_r else slopes
  List.zipWith (fun m b => (c_s / (10 : ℝ) ^ b) ^ (1 / m)) slopes1 intercepts

/-! Theorems settling the claims. -/

/-- Claim C5: brunt_index_correct is the broken linear map, with value
(value - 0.32) / 0.59 below 0.67 and (value - 0.03) / 1.07 from 0.67 on;
gamma applies it to the point estimate and gamma_error_range applies it to
each bound of the index error range independently; the two branch formulas
evaluate at the 0.67 boundary to (0.67 - 0.32) / 0.59 = 35/59 and
(0.67 - 0.03) / 1.07 = 64/107 exactly. -/
theorem brunt_gamma_piecewise (v : ℚ) (r : ℚ × ℚ) :
    (v < 67/100 → brunt_index_correct v = (v - 32/100) / (59/100))
    ∧ (67/100 ≤ v → brunt_index_correct v = (v - 3/100) / (107/100))
    ∧ gamma_of v = brunt_index_correct v
    ∧ gamma_error_range_of r = (brunt_index_correct r.1, brunt_index_correct r.2)
    ∧ ((67:ℚ)/100 - 32/100) / (59/100) = 35/59
    ∧ ((67:ℚ)/100 - 3/100) / (107/100) = 64/107 := by
  refine ⟨fun h => ?_, fun h => ?_, rfl, rfl, by norm_num, by norm_num⟩
  · unfold brunt_index_correct
    rw [if_pos h]
  · unfold brunt_index_correct
    rw [if_neg (not_lt.mpr h)]

/-- Witness for claim C5 at the inputs v = 0 and r = (0, 1). -/
theorem brunt_gamma_piecewise_witness :
    ((0:ℚ) < 67/100 → brunt_index_correct 0 = ((0:ℚ) - 32/100) / (59/100))
    ∧ ((67:ℚ)/100 ≤ 0 → brunt_index_correct 0 = ((0:ℚ) - 3/100) / (107/100))
    ∧ gamma_of 0 = brunt_index_correct 0
    ∧ gamma_error_range_of (0, 1) =
        (brunt_index_correct 0, brunt_index_correct 1)
    ∧ ((67:ℚ)/100 - 32/100) / (59/100) = 35/59
    ∧ ((67:ℚ)/100 - 3/100) / (107/100) = 64/107 :=
  brunt_gamma_piecewise 0 (0, 1)

/-- Claim C9 counterexample: an infinite sample is not replaced by
patch_nans, so the array handed to the covariance builder can still hold a
non finite value. The claim, which says every non finite sample (NaN or
infinite) is replaced, is false at this input. -/
theorem patch_nans_inf_cex :
    patch_nans float64eps [FVal.inf] = [FVal.inf]
    ∧ FVal.isFinite FVal.inf = false :=
  ⟨rfl, rfl⟩

/-- Claim C9 amended: only NaN samples are replaced, and by the nonzero
machine epsilon, not by zero; other samples, infinities included, are left
unchanged, so the covariance input is all finite exactly when the raw data
holds no infinities. -/
theorem patch_nans_nan_only (eps : ℚ) (data : List FVal) (heps : eps ≠ 0) :
    patch_nans eps data =
      data.map (fun v => if v = FVal.nan then FVal.fin eps else v)
    ∧ FVal.fin eps ≠ FVal.fin 0
    ∧ ((∀ v ∈ data, v ≠ FVal.inf ∧ v ≠ FVal.ninf) →
        ∀ w ∈ patch_nans eps data, FVal.isFinite w = true) := by
  refine ⟨?_, by simpa using heps, ?_⟩
  · induction data with
    | nil => rfl
    | cons v t ih =>
      simp only [patch_nans, List.map_cons] at ih ⊢
      refine congrArg₂ List.cons ?_ ih
      cases v <;> simp
  · intro hdata w hw
    obtain ⟨v, hv, rfl⟩ := List.mem_map.mp hw
    cases v with
    | nan => rfl
    | inf => exact absurd rfl (hdata _ hv).1
    | ninf => exact absurd rfl (hdata _ hv).2
    | fin q => rfl

/-- Witness for the amended claim C9 at eps the float64 machine epsilon
and data holding one NaN and one finite sample. -/
theorem patch_nans_nan_only_witness :
    patch_nans float64eps [FVal.nan, FVal.fin 3] =
      ([FVal.nan, FVal.fin 3].map
        (fun v => if v = FVal.nan then FVal.fin float64eps else v))
    ∧ FVal.fin float64eps ≠ FVal.fin 0
    ∧ ((∀ v ∈ [FVal.nan, FVal.fin 3], v ≠ FVal.inf ∧ v ≠ FVal.ninf) →
        ∀ w ∈ patch_nans float64eps [FVal.nan, FVal.fin 3],
          FVal.isFinite w = true) :=
  patch_nans_nan_only float64eps [FVal.nan, FVal.fin 3]
    (by norm_num [float64eps])

/-- Claim C2 counterexample: noise_ACF divides the summed autocorrelation
images by the signed mode count, not by its absolute value. For the stack
[[2], [4]] and n_eigs = -2 the source returns [-3], while the sum divided
by the positive divisor two is [3]; the returned value has the opposite
sign to the summed mode ACFs, refuting the claim. -/
theorem noise_ACF_sign_flip_cex :
    noise_ACF [[2], [4]] (-2) = [-3]
    ∧ (np_nansum_axis0 [[2], [4]]).map
        (fun x => x / ((Int.natAbs (-2) : ℕ) : ℚ)) = [3]
    ∧ ¬([-3] : List ℚ) = [3] := by
  refine ⟨?_, ?_, by norm_num⟩
  · norm_num [noise_ACF, np_nansum_axis0]
  · norm_num [np_nansum_axis0]

/-- Claim C2 amended: for negative n_eigs, noise_ACF returns the
elementwise sum of the autocorrelation images divided by n_eigs itself, a
negative divisor, which is the negation of the average over the absolute
mode count. -/
theorem noise_ACF_signed_divisor (acors : List (List ℚ)) (n : ℤ)
    (hn : n < 0) :
    noise_ACF acors n =
      (np_nansum_axis0 acors).map (fun x => -(x / ((n.natAbs : ℕ) : ℚ))) := by
  unfold noise_ACF
  have h1 : ((n.natAbs : ℕ) : ℚ) = -(n : ℚ) := by
    rw [Int.cast_natAbs, abs_of_neg hn]
    push_cast
    ring
  have h2 : (fun x : ℚ => x / (n : ℚ)) =
      fun x : ℚ => -(x / ((n.natAbs : ℕ) : ℚ)) := by
    funext x
    rw [h1, div_neg, neg_neg]
  rw [h2]

/-- Witness for the amended claim C2 at the stack [[2], [4]] and
n_eigs = -2. -/
theorem noise_ACF_signed_divisor_witness :
    noise_ACF [[2], [4]] (-2) =
      (np_nansum_axis0 [[2], [4]]).map
        (fun x => -(x / ((Int.natAbs (-2) : ℕ) : ℚ))) :=
  noise_ACF_signed_divisor [[2], [4]] (-2) (by decide)

/-- Fit method tag that is neither odr nor bayes, used as a concrete
invalid input. -/
def method_linear : String := "linear"

/-- Concrete pipeline state used as input for the fit_plaw claims: three
modes, all widths finite, decomposition flag currently true. -/
def sample_fit_state : PCAFitState :=
  { spectral_width := [some 1, some 2, some 3]
    spatial_width := [some 1, some 2, some 3]
    spectral_width_error := [some 1, some 1, some 1]
    spatial_width_error := [some 1, some 1, some 1]
    decomp_only := some true
    fit_method := none }

/-- Claim C8 counterexample: calling fit_plaw with an invalid fit method
raises immediately, but the decomposition only flag has already been
mutated from true to false before the validation, so the state is not
identical before and after the failed call. -/
theorem fit_plaw_invalid_method_cex :
    (fit_plaw sample_fit_state method_linear).2 = .error .typeError
    ∧ (fit_plaw sample_fit_state method_linear).1.decomp_only = some false
    ∧ sample_fit_state.decomp_only = some true
    ∧ ¬(some true = some false) := by
  refine ⟨rfl, rfl, rfl, by decide⟩

/-- Claim C8 amended: for every fit method other than odr and bayes,
fit_plaw raises the invalid argument error (a TypeError in the source)
immediately, before the fit method name is stored and before any width
processing; every field of the state is unchanged except the decomposition
only flag, which is set to false before the validation. -/
theorem fit_plaw_invalid_method_state (st : PCAFitState) (m : String)
    (hm : m ≠ method_odr ∧ m ≠ method_bayes) :
    fit_plaw st m = ({ st with decomp_only := some false }, .error .typeError) := by
  unfold fit_plaw
  rw [if_pos hm]

/-- Witness for the amended claim C8 at the sample state and the invalid
method string linear. -/
theorem fit_plaw_invalid_method_state_witness :
    fit_plaw sample_fit_state method_linear =
      ({ sample_fit_state with decomp_only := some false },
        .error .typeError) :=
  fit_plaw_invalid_method_state sample_fit_state method_linear (by decide)

/-- Reading off a list at every index of its range reproduces the list. -/
lemma map_getD_range (l : List ℚ) :
    (List.range l.length).map (fun i => l.getD i 0) = l := by
  induction l with
  | nil => rfl
  | cons x t ih =>
    rw [List.length_cons, List.range_succ_eq_map, List.map_cons, List.map_map]
    refine congrArg₂ List.cons rfl ?_
    exact ih

/-- Counting np.where indices over the range of a list equals counting the
elements themselves. -/
lemma filter_range_length (l : List ℚ) (p : ℚ → Bool) :
    ((List.range l.length).filter (fun i => p (l.getD i 0))).length
      = l.countP p := by
  rw [← List.countP_eq_length_filter]
  conv_rhs => rw [← map_getD_range l]
  rw [List.countP_map]
  rfl

/-- The cumulative sum list is the list of prefix sums. -/
lemma np_cumsum_eq_prefix_sums (l : List ℚ) :
    np_cumsum l = (List.range l.length).map (fun i => (l.take (i + 1)).sum) := by
  induction l with
  | nil => rfl
  | cons x t ih =>
    rw [show np_cumsum (x :: t) = x :: (np_cumsum t).map (fun y => x + y) from rfl,
      ih, List.length_cons, List.range_succ_eq_map, List.map_cons,
      List.map_map, List.map_map]
    refine congrArg₂ List.cons (by simp) ?_
    refine congrArg₂ List.map ?_ rfl
    funext j
    simp [Function.comp, List.take_succ_cons]

/-- Division by a constant distributes through the cumulative sums. -/
lemma np_cumsum_map_div (l : List ℚ) (s : ℚ) :
    np_cumsum (l.map (fun e => e / s)) = (np_cumsum l).map (fun x => x / s) := by
  induction l with
  | nil => rfl
  | cons x t ih =>
    rw [List.map_cons,
      show np_cumsum (x / s :: t.map (fun e => e / s))
        = x / s :: (np_cumsum (t.map (fun e => e / s))).map (fun y => x / s + y) from rfl,
      show np_cumsum (x :: t) = x :: (np_cumsum t).map (fun y => x + y) from rfl,
      ih, List.map_cons, List.map_map, List.map_map]
    refine congrArg₂ List.cons rfl (congrArg₂ List.map ?_ rfl)
    funext y
    simp [Function.comp, add_div]

/-- Claim C4: set_n_eigs with the value method returns the count of
eigenvalues at least min_eigval, and with the proportion method the count
of indices whose cumulative normalized sum, the prefix sum divided by the
total, is at most min_eigval; a cumulative sum exactly equal to the
threshold satisfies the comparison and is included in the count. The
hypothesis that the total is nonzero keeps the rational embedding on the
domain where it matches the floating point source, which would produce
NaN entries for a zero total. -/
theorem set_n_eigs_counts (eigs : List ℚ) (v : ℚ) (_hs : eigs.sum ≠ 0) :
    set_n_eigs eigs v method_value =
      .ok (eigs.countP (fun e => decide (v ≤ e)))
    ∧ set_n_eigs eigs v method_proportion =
        .ok (((List.range eigs.length).filter
          (fun i => decide ((eigs.take (i + 1)).sum / eigs.sum ≤ v))).length)
    ∧ ∀ i : ℕ, (eigs.take (i + 1)).sum / eigs.sum = v →
        decide ((eigs.take (i + 1)).sum / eigs.sum ≤ v) = true := by
  refine ⟨?_, ?_, fun i h => decide_eq_true (le_of_eq h)⟩
  · unfold set_n_eigs
    rw [if_pos rfl]
    exact congrArg Except.ok (filter_range_length eigs (fun e => decide (v ≤ e)))
  · unfold set_n_eigs
    rw [if_neg (by decide), if_pos rfl]
    refine congrArg Except.ok ?_
    rw [np_cumsum_map_div, np_cumsum_eq_prefix_sums, List.map_map,
      List.countP_map]
    conv_rhs => rw [← List.countP_eq_length_filter]
    rfl

/-- Witness for claim C4 at eigenvalues [1, 1, 2] and threshold 1/2, where
the second cumulative normalized sum equals the threshold exactly and is
counted. -/
theorem set_n_eigs_counts_witness :
    set_n_eigs [1, 1, 2] (1/2) method_value =
      .ok (([1, 1, 2] : List ℚ).countP (fun e => decide ((1:ℚ)/2 ≤ e)))
    ∧ set_n_eigs [1, 1, 2] (1/2) method_proportion =
        .ok (((List.range ([1, 1, 2] : List ℚ).length).filter
          (fun i => decide ((([1, 1, 2] : List ℚ).take (i + 1)).sum /
            ([1, 1, 2] : List ℚ).sum ≤ 1/2))).length)
    ∧ ∀ i : ℕ, (([1, 1, 2] : List ℚ).take (i + 1)).sum /
          ([1, 1, 2] : List ℚ).sum = 1/2 →
        decide ((([1, 1, 2] : List ℚ).take (i + 1)).sum /
          ([1, 1, 2] : List ℚ).sum ≤ 1/2) = true :=
  set_n_eigs_counts [1, 1, 2] (1/2)
    (by show (1 + (1 + (2 + 0)) : ℚ) ≠ 0; norm_num)

/-- Claim C3 counterexample, at the sorted eigenvalues [10, 1, 1, 1, 1]
with mean_sub disabled. First, with the automatic proportion cut at 3/4
the source selects n_eigs = 1 because set_n_eigs receives the full array
including index 0, while the selection over the array without the first
eigenvalue would give 3, so the first eigenvalue is not excluded from the
cumulative proportion fit. Second, with n_eigs = 3 the variance proportion
returned is 1/2, the sum of the two eigenvalues at indices 1 and 2 over
the total 4, not 3/4, the sum of the first three modes starting at
index 1; so the numerator is not the variance of the first n_eigs modes
from index 1. -/
theorem compute_pca_variance_cex :
    compute_pca false .auto (some (3/4)) method_proportion
      [10, 1, 1, 1, 1] 5 = .ok (1, 4, 0)
    ∧ set_n_eigs [1, 1, 1, 1] (3/4) method_proportion = .ok 3
    ∧ ¬(1 : ℕ) = 3
    ∧ compute_pca false (.num 3) none method_value [10, 1, 1, 1, 1] 5 =
        .ok (3, 4, 1/2)
    ∧ ((([10, 1, 1, 1, 1] : List ℚ).drop 1).take 3).sum /
        (([10, 1, 1, 1, 1] : List ℚ).drop 1).sum = 3/4
    ∧ ¬(1/2 : ℚ) = 3/4 := by
  refine ⟨?_, ?_, by decide, ?_, by norm_num, by norm_num⟩
  · simp [compute_pca, compute_pca_select, set_n_eigs, method_proportion,
      method_value, np_cumsum, n_eigs_setter, compute_pca_variance]
    norm_num
  · simp [set_n_eigs, method_proportion, method_value, np_cumsum]
    norm_num
  · simp [compute_pca, compute_pca_select, set_n_eigs, method_value,
      n_eigs_setter, compute_pca_variance]
    norm_num

/-- Claim C3 amended: with mean_sub the eigenvalue sums start at index 0;
without mean_sub the total variance sums from index 1 and the proportion
numerator is the sum of the eigenvalues at indices 1 up to n_eigs - 1,
one mode fewer than n_eigs; the automatic selection passes the full
eigenvalue array, index 0 included, to set_n_eigs for either value of
mean_sub. -/
theorem compute_pca_variance_indices (meanSub : Bool) (eigs : List ℚ)
    (n : ℕ) (mv : ℚ) (cm : String) (shape : ℕ) :
    compute_pca_variance true eigs n =
      (eigs.sum, (eigs.take n).sum / eigs.sum)
    ∧ compute_pca_variance false eigs n =
        ((eigs.drop 1).sum,
          ((eigs.drop 1).take (n - 1)).sum / (eigs.drop 1).sum)
    ∧ (compute_pca meanSub .auto (some mv) cm eigs shape).map Prod.fst
        = (compute_pca true .auto (some mv) cm eigs shape).map Prod.fst := by
  refine ⟨rfl, ?_, ?_⟩
  · unfold compute_pca_variance
    rw [if_neg (by simp), List.drop_take]
  · unfold compute_pca
    cases h : compute_pca_select .auto (some mv) cm eigs shape <;>
      simp [h, Except.map]

/-- Witness for the amended claim C3 at mean_sub false, eigenvalues
[10, 1, 1, 1, 1], n_eigs 3 and an automatic proportion cut at 3/4. -/
theorem compute_pca_variance_indices_witness :
    compute_pca_variance true [10, 1, 1, 1, 1] 3 =
      (([10, 1, 1, 1, 1] : List ℚ).sum,
        (([10, 1, 1, 1, 1] : List ℚ).take 3).sum /
          ([10, 1, 1, 1, 1] : List ℚ).sum)
    ∧ compute_pca_variance false [10, 1, 1, 1, 1] 3 =
        ((([10, 1, 1, 1, 1] : List ℚ).drop 1).sum,
          ((([10, 1, 1, 1, 1] : List ℚ).drop 1).take (3 - 1)).sum /
            (([10, 1, 1, 1, 1] : List ℚ).drop 1).sum)
    ∧ (compute_pca false .auto (some (3/4)) method_proportion
          [10, 1, 1, 1, 1] 5).map Prod.fst
        = (compute_pca true .auto (some (3/4)) method_proportion
            [10, 1, 1, 1, 1] 5).map Prod.fst :=
  compute_pca_variance_indices false [10, 1, 1, 1, 1] 3 (3/4)
    method_proportion 5

/-- The finite mask is the componentwise conjunction over the zipped width
arrays. -/
lemma finite_mask4_eq_map_zip (a b c d : List (Option ℚ)) :
    finite_mask4 a b c d =
      (a.zip (b.zip (c.zip d))).map
        (fun t => ((t.1.isSome && t.2.1.isSome) && t.2.2.1.isSome) &&
          t.2.2.2.isSome) := by
  induction a generalizing b c d with
  | nil => rfl
  | cons x t ih =>
    cases b with
    | nil => rfl
    | cons y b' =>
      cases c with
      | nil => rfl
      | cons z c' =>
        cases d with
        | nil => rfl
        | cons w d' => exact congrArg₂ List.cons rfl (ih b' c' d')

/-- Splitting a Boolean list count into false entries and true entries. -/
lemma countP_bool_split (l : List Bool) :
    l.countP (fun x => decide (x = false)) + l.countP (fun x => x) =
      l.length := by
  induction l with
  | nil => rfl
  | cons x t ih =>
    cases x <;> simp [List.countP_cons, ← ih] <;> omega

/-- Claim C6: fit_plaw counts as valid exactly the modes at which the
spatial width, the spectral width and both errors are finite; with fewer
than two valid points it raises (the insufficient data failure, a raised
Warning in the source), and with two, three or four valid points it emits
the non fatal few points warning and still proceeds to the fit. -/
theorem fit_plaw_valid_points (st : PCAFitState) (m : String)
    (hm : m = method_odr ∨ m = method_bayes)
    (h1 : st.spatial_width.length = st.spectral_width.length)
    (h2 : st.spatial_width_error.length = st.spectral_width.length)
    (h3 : st.spectral_width_error.length = st.spectral_width.length) :
    num_pts st = ((st.spectral_width.zip (st.spatial_width.zip
        (st.spatial_width_error.zip st.spectral_width_error))).countP
      (fun t => ((t.1.isSome && t.2.1.isSome) && t.2.2.1.isSome) &&
        t.2.2.2.isSome) : ℤ)
    ∧ (num_pts st < 2 →
        fit_plaw st m =
          ({ st with decomp_only := some false, fit_method := some m },
            .error .warningError))
    ∧ (2 ≤ num_pts st →
        fit_plaw st m =
          ({ st with decomp_only := some false, fit_method := some m },
            .ok (num_pts st < 5))) := by
  have hcond : ¬(m ≠ method_odr ∧ m ≠ method_bayes) := by
    rcases hm with rfl | rfl
    · exact fun h => h.1 rfl
    · exact fun h => h.2 rfl
  refine ⟨?_, ?_, ?_⟩
  · have hmask : are_finite_mask st =
        (st.spectral_width.zip (st.spatial_width.zip
          (st.spatial_width_error.zip st.spectral_width_error))).map
          (fun t => ((t.1.isSome && t.2.1.isSome) && t.2.2.1.isSome) &&
            t.2.2.2.isSome) :=
      finite_mask4_eq_map_zip _ _ _ _
    have hlen : (st.spectral_width.zip (st.spatial_width.zip
        (st.spatial_width_error.zip st.spectral_width_error))).length
        = st.spectral_width.length := by
      simp [List.length_zip, h1, h2, h3]
    have hsplit := countP_bool_split (are_finite_mask st)
    rw [hmask, List.countP_map, List.countP_map, List.length_map, hlen] at hsplit
    unfold num_pts
    rw [hmask, List.countP_map]
    simp only [Function.comp_def] at hsplit ⊢
    omega
  · intro hlt
    unfold fit_plaw
    rw [if_neg hcond, if_pos hlt]
  · intro hge
    unfold fit_plaw
    rw [if_neg hcond, if_neg (not_lt.mpr hge)]

/-- Concrete pipeline state with four modes, of which three have all four
width entries finite. -/
def sample_fit_state4 : PCAFitState :=
  { spectral_width := [some 1, some 2, some 3, none]
    spatial_width := [some 1, some 2, some 3, some 4]
    spectral_width_error := [some 1, some 1, some 1, some 1]
    spatial_width_error := [some 1, some 1, some 1, some 1] }

/-- Witness for claim C6 at a state with three valid points and the odr
fit method: the few points warning path is taken and the fit proceeds. -/
theorem fit_plaw_valid_points_witness :
    num_pts sample_fit_state4 =
      ((sample_fit_state4.spectral_width.zip
        (sample_fit_state4.spatial_width.zip
          (sample_fit_state4.spatial_width_error.zip
            sample_fit_state4.spectral_width_error))).countP
      (fun t => ((t.1.isSome && t.2.1.isSome) && t.2.2.1.isSome) &&
        t.2.2.2.isSome) : ℤ)
    ∧ (num_pts sample_fit_state4 < 2 →
        fit_plaw sample_fit_state4 method_odr =
          ({ sample_fit_state4 with decomp_only := some false, fit_method := some method_odr },
            .error .warningError))
    ∧ (2 ≤ num_pts sample_fit_state4 →
        fit_plaw sample_fit_state4 method_odr =
          ({ sample_fit_state4 with decomp_only := some false, fit_method := some method_odr },
            .ok (num_pts sample_fit_state4 < 5))) :=
  fit_plaw_valid_points sample_fit_state4 method_odr (Or.inl rfl) rfl rfl rfl

/-- Squared differences are symmetric in the two zipped lists. -/
lemma zipWith_sub_sq_comm (a b : List ℝ) :
    (List.zipWith (fun x y => x - y) a b).map (fun x => x ^ 2)
      = (List.zipWith (fun x y => x - y) b a).map (fun x => x ^ 2) := by
  induction a generalizing b with
  | nil => cases b <;> rfl
  | cons x t ih =>
    cases b with
    | nil => rfl
    | cons y b' =>
      simp only [List.zipWith_cons_cons, List.map_cons]
      exact congrArg₂ List.cons (by ring) (ih b')

/-- The squared differences of a list with itself sum to zero. -/
lemma sum_sq_zipWith_self (a : List ℝ) :
    ((List.zipWith (fun x y => x - y) a a).map (fun x => x ^ 2)).sum = 0 := by
  induction a with
  | nil => rfl
  | cons x t ih =>
    simp only [List.zipWith_cons_cons, List.map_cons, List.sum_cons, ih,
      sub_self, add_zero]
    norm_num

/-- Claim C7: the distance of PCA_Distance is symmetric in the two
decomposed states, vanishes when a state is compared with itself, and the
method only assigns the distance attribute, leaving the eigenvalue arrays
of both inputs unchanged. -/
theorem distance_metric_props (meanSub : Bool) (nEigs : ℕ)
    (e1 e2 : List ℝ) (st : PCADistState) :
    distance_metric meanSub nEigs e1 e2 = distance_metric meanSub nEigs e2 e1
    ∧ distance_metric meanSub nEigs e1 e1 = 0
    ∧ (distance_metric_run st).eigvals1 = st.eigvals1
    ∧ (distance_metric_run st).eigvals2 = st.eigvals2
    ∧ (distance_metric_run st).mean_sub = st.mean_sub
    ∧ (distance_metric_run st).n_eigs = st.n_eigs := by
  refine ⟨?_, ?_, rfl, rfl, rfl, rfl⟩
  · unfold distance_metric eucl_norm
    rw [zipWith_sub_sq_comm]
  · unfold distance_metric eucl_norm
    rw [sum_sq_zipWith_self, Real.sqrt_zero]

/-- Witness for claim C7 at concrete eigenvalue arrays and a concrete
distance state. -/
theorem distance_metric_props_witness :
    distance_metric true 1 [1] [2] = distance_metric true 1 [2] [1]
    ∧ distance_metric true 1 [1] [1] = 0
    ∧ (distance_metric_run
        { eigvals1 := [1], eigvals2 := [2], mean_sub := true,
          n_eigs := 1 }).eigvals1 =
      ({ eigvals1 := [1], eigvals2 := [2], mean_sub := true,
          n_eigs := 1 } : PCADistState).eigvals1
    ∧ (distance_metric_run
        { eigvals1 := [1], eigvals2 := [2], mean_sub := true,
          n_eigs := 1 }).eigvals2 =
      ({ eigvals1 := [1], eigvals2 := [2], mean_sub := true,
          n_eigs := 1 } : PCADistState).eigvals2
    ∧ (distance_metric_run
        { eigvals1 := [1], eigvals2 := [2], mean_sub := true,
          n_eigs := 1 }).mean_sub =
      ({ eigvals1 := [1], eigvals2 := [2], mean_sub := true,
          n_eigs := 1 } : PCADistState).mean_sub
    ∧ (distance_metric_run
        { eigvals1 := [1], eigvals2 := [2], mean_sub := true,
          n_eigs := 1 }).n_eigs =
      ({ eigvals1 := [1], eigvals2 := [2], mean_sub := true,
          n_eigs := 1 } : PCADistState).n_eigs :=
  distance_metric_props true 1 [1] [2]
    { eigvals1 := [1], eigvals2 := [2], mean_sub := true, n_eigs := 1 }

/-- Claim C10: for every negative mode count the loop range of
autocorr_spec is empty, the accumulator is never bound and the call fails
with the unbound local error instead of returning the last modes; the
index selection of eigimages, in contrast, honours the negative count and
selects the last abs(n_eigs) valid eigenmode indices (autocorr_images
delegates its selection to eigimages). -/
theorem autocorr_spec_negative_fails (f : ℕ → List ℚ) (eigvals : List ℚ)
    (eps : ℚ) (n : ℤ) (hn : n < 0) :
    pyrange n = []
    ∧ autocorr_spec f n = .error .unboundLocal
    ∧ eigimages_iter eigvals eps n =
        some (lastN (valid_eigenvectors eigvals eps) n.natAbs) := by
  have hp : pyrange n = [] := by
    unfold pyrange
    rw [Int.toNat_of_nonpos (le_of_lt hn)]
    rfl
  refine ⟨hp, ?_, ?_⟩
  · unfold autocorr_spec
    rw [hp]
  · unfold eigimages_iter
    rw [if_neg (by omega), if_pos hn]
    unfold lastN
    have harg : (((valid_eigenvectors eigvals eps).length : ℤ) + n).toNat
        = (valid_eigenvectors eigvals eps).length - n.natAbs := by omega
    rw [harg]

/-- Witness for claim C10 at n_eigs = -3 with a one channel eigenvalue
list. -/
theorem autocorr_spec_negative_fails_witness :
    pyrange (-3) = []
    ∧ autocorr_spec (fun _ => ([] : List ℚ)) (-3) = .error .unboundLocal
    ∧ eigimages_iter [1] 0 (-3) =
        some (lastN (valid_eigenvectors [1] 0) (Int.natAbs (-3))) :=
  autocorr_spec_negative_fails (fun _ => []) [1] 0 (-3) (by decide)

/-- Claim C1, which is a bug in the source: on the bayes branch of
sonic_length the sample lambda distribution is computed with the scalar
point estimate index as the exponent for every sample, even though the
gamma corrected slope samples have just been built; recomputing lambda
with the slope sample of each draw, as the claim and the surrounding
comments describe, gives a different distribution. At sound speed 4,
point index 1, slope samples [1, 2] and intercept samples [0, 0] the
source produces [4, 4] while the per sample recomputation gives [4, 2],
so the 15th and 85th percentiles of the two distributions differ. -/
theorem sonic_length_bayes_point_slope :
    sonic_lambda_samples 4 1 [1, 2] [0, 0] false = [4, 4]
    ∧ sonic_lambda_samples_claim 4 [1, 2] [0, 0] false = [4, 2]
    ∧ ¬([4, 4] : List ℝ) = [4, 2] := by
  have h10 : (10 : ℝ) ^ (0 : ℝ) = 1 := Real.rpow_zero 10
  have h41 : (4 : ℝ) ^ ((1 : ℝ) / 1) = 4 := by
    norm_num [Real.rpow_one]
  have h42 : (4 : ℝ) ^ ((2 : ℝ))⁻¹ = 2 := by
    rw [show (4 : ℝ) = (2 : ℝ) ^ (2 : ℕ) by norm_num,
      ← Real.rpow_natCast (2 : ℝ) 2,
      ← Real.rpow_mul (by norm_num : (0 : ℝ) ≤ 2)]
    norm_num [Real.rpow_one]
  refine ⟨?_, ?_, by norm_num⟩
  · unfold sonic_lambda_samples
    simp [h10, h41]
  · unfold sonic_lambda_samples_claim
    simp [h10, h41, h42]

end TurbuStat
